import Mathlib

/-!
Shallow embedding of the session-orchestration core of the ai-voice-therapist
frontend (App.jsx, hooks/useVoiceChat.js and the WebSocket hook variant), and
proofs of the spec's claims about it.

Times and energy levels are natural numbers.  JavaScript computes
`Date.now() - t0 > holdOff` on numbers; whenever both operands come from
`Date.now()` the difference is non-negative, and when it would be negative the
comparison with a positive bound is false, exactly as truncated `Nat`
subtraction makes it, so `holdOff < t - t0` over `Nat` reproduces the guard.
-/

/-! ## Transcript data model -/

/-- One message of the conversation transcript: the `{ role, content }`
objects of `chatHistory`. -/
structure ChatTurn where
  role : String
  content : String
  deriving DecidableEq, Repr

/-! ## Voice activity detection

Each VAD variant is an animation-frame loop over energy samples.  A trace is a
finite list of `(time, level)` pairs, one per `requestAnimationFrame` tick.
Each loop either runs off the end of the trace (returning its final mutable
state, `Sum.inl`) or calls `mediaRecorder.stop()` at the time of some sample
(`Sum.inr t`, the "utterance ended" event) and schedules no further tick, so
samples after a firing are never consumed. -/

/-- Runs a per-tick step function over a sample trace; `Sum.inr` is a firing,
which ends the loop (the JS loop `return`s without scheduling another
`requestAnimationFrame`). -/
def runLoop {σ : Type} (step : σ → Nat → Nat → Sum σ Nat) : σ → List (Nat × Nat) → Sum σ Nat
  | s, [] => Sum.inl s
  | s, (t, v) :: rest =>
    match step s t v with
    | Sum.inl s' => runLoop step s' rest
    | Sum.inr tf => Sum.inr tf

/-- Mutable state of `silenceLoop` in `useVoiceChat.js` `listenToUser`
(lines 163–186): `hasSpoken` and `silenceStart` (JS `null` is `none`). -/
structure VadState where
  hasSpoken : Bool
  silenceStart : Option Nat
  deriving DecidableEq, Repr

/-- One tick of `silenceLoop` (`useVoiceChat.js` lines 168–186):
`avg >= THRESHOLD` sets `hasSpoken` and clears `silenceStart`; otherwise, once
speech has been observed, the first quiet tick records `silenceStart` and a
later quiet tick with `Date.now() - silenceStart > MAX_SILENCE_MS` stops the
recorder. -/
def silenceLoopStep (thr holdOff : Nat) (s : VadState) (t v : Nat) : Sum VadState Nat :=
  if thr ≤ v then Sum.inl ⟨true, none⟩
  else if s.hasSpoken then
    match s.silenceStart with
    | none => Sum.inl ⟨true, some t⟩
    | some t0 => if holdOff < t - t0 then Sum.inr t else Sum.inl s
  else Sum.inl s

/-- `silenceLoop` of `useVoiceChat.js` over a whole trace.  The source uses
`THRESHOLD = 10` and `MAX_SILENCE_MS = 2000`; the embedding keeps them as
parameters. -/
def silenceLoopGo (thr holdOff : Nat) : VadState → List (Nat × Nat) → Sum VadState Nat :=
  runLoop (silenceLoopStep thr holdOff)

/-- Mutable state of `VAD_LOOP` in the WebSocket hook (`startMicRecording`):
`spoken` and `silenceAt` (initialised to `Date.now()` before the loop
starts). -/
structure WsVadState where
  spoken : Bool
  silenceAt : Nat
  deriving DecidableEq, Repr

/-- One tick of `VAD_LOOP` (WebSocket hook, lines 95–126): a loud tick sets
`spoken` and resets `silenceAt` to the tick time; a quiet tick after speech
with `Date.now() - silenceAt > 1500` flushes and stops the recorder. -/
def vadLoopStep (thr holdOff : Nat) (s : WsVadState) (t v : Nat) : Sum WsVadState Nat :=
  if thr ≤ v then Sum.inl ⟨true, t⟩
  else if s.spoken then
    if holdOff < t - s.silenceAt then Sum.inr t else Sum.inl s
  else Sum.inl s

/-- `VAD_LOOP` of the WebSocket hook over a whole trace (source constants:
threshold 10, hold-off 1500 ms). -/
def vadLoopGo (thr holdOff : Nat) : WsVadState → List (Nat × Nat) → Sum WsVadState Nat :=
  runLoop (vadLoopStep thr holdOff)

/-- One tick of `silenceCheckLoop` in `App.jsx` `listenToUser`
(lines 161–180).  Its only state is `silenceStartTime : Option Nat`; there is
no has-spoken flag: any quiet tick starts (or continues) the silence timer,
and a loud tick resets it to `null`. -/
def silenceCheckLoopStep (thr holdOff : Nat) (st : Option Nat) (t v : Nat) :
    Sum (Option Nat) Nat :=
  if v < thr then
    match st with
    | none => Sum.inl (some t)
    | some t0 => if holdOff < t - t0 then Sum.inr t else Sum.inl st
  else Sum.inl none

/-- `silenceCheckLoop` of `App.jsx` over a whole trace (source constants:
`SILENCE_THRESHOLD = 10`, `MAX_SILENCE_MS = 4000`). -/
def silenceCheckLoopGo (thr holdOff : Nat) : Option Nat → List (Nat × Nat) → Sum (Option Nat) Nat :=
  runLoop (silenceCheckLoopStep thr holdOff)

/-! ## Transcript merging (WebSocket hook, `ws.onmessage`, lines 275–302)

An `assistant_text` message folds into `chatHistory`: a partial token is
appended to the content of a trailing assistant turn (or opens a new one); a
final message replaces the content of a trailing assistant turn (or opens a
new one). -/

/-- The `ASSISTANT_TEXT` branch of `ws.onmessage`: `isAssistantLast` is
`history.length && history[history.length - 1].role === 'assistant'`, and
`history[history.length - 1] = {...}` is `dropLast ++ [...]`. -/
def applyAssistantText (hist : List ChatTurn) (text : String) (partialFlag : Bool) :
    List ChatTurn :=
  match hist.getLast? with
  | some last =>
    if last.role = "assistant" then
      if partialFlag then hist.dropLast ++ [⟨"assistant", last.content ++ text⟩]
      else hist.dropLast ++ [⟨"assistant", text⟩]
    else hist ++ [⟨"assistant", text⟩]
  | none => hist ++ [⟨"assistant", text⟩]

/-- The initial `chatHistory` of every variant, followed by one user turn, as
in the spec's end-to-end scenario. -/
def demoHistory : List ChatTurn :=
  [⟨"assistant", "Hello, I'm here to listen. How can I assist you today?"⟩,
   ⟨"user", "I feel anxious"⟩]

/-! ## Playback buffer (WebSocket hook, MediaSource path)

State of the incremental TTS playback pipeline while the `MediaSource` is
open: `chunkQueueRef` (`queue`), `sourceBuffer.updating` (`updating`), the
chunks handed to `appendBuffer` so far in order (`sink`), whether
`finishTTSPlayback` has attached its `checkAndEnd` listener (`waiting`), and
whether `ms.endOfStream()` has run (`finalized`).  Chunks are identified by
numbers.  The cooperative scheduler delivers three kinds of events. -/

/-- An event reaching the playback pipeline: a binary WebSocket frame
carrying a TTS chunk, a `SourceBuffer` `updateend` completion, or the
`{type:"audio_end"}` message. -/
inductive BufEv
  | chunk (c : Nat)
  | updateEnd
  | audioEnd
  deriving DecidableEq, Repr

/-- Playback-pipeline state (see the section comment above). -/
structure BufState where
  queue : List Nat
  updating : Bool
  sink : List Nat
  waiting : Bool
  finalized : Bool
  deriving DecidableEq, Repr

/-- `pumpQueue` (WebSocket hook, lines 143–146): if no append is in progress
and a chunk is queued, shift it off the queue and hand it to
`sourceBuffer.appendBuffer`, which starts an append (`updating` becomes
true). -/
def pumpQueue (s : BufState) : BufState :=
  if s.updating then s
  else
    match s.queue with
    | [] => s
    | c :: rest => { s with queue := rest, sink := s.sink ++ [c], updating := true }

/-- `checkAndEnd` inside `finishTTSPlayback` (lines 226–235): on `updateend`,
if chunks are still queued wait for the next `updateend`; if no append is in
progress, call `ms.endOfStream()` and detach. -/
def checkAndEnd (s : BufState) : BufState :=
  if s.queue ≠ [] then s
  else if s.updating then s
  else { s with finalized := true, waiting := false }

/-- A `SourceBuffer` `updateend` event: the browser clears `updating`, then
the listeners run in attachment order — `pumpQueue` (attached at
`sourceopen`, line 161) and then `checkAndEnd` if `finishTTSPlayback`
attached it. -/
def onUpdateEnd (s : BufState) : BufState :=
  let s1 := pumpQueue { s with updating := false }
  if s1.waiting then checkAndEnd s1 else s1

/-- A binary frame in `ws.onmessage` (lines 256–266):
`chunkQueueRef.current.push(chunk)` then `pumpQueue()`. -/
def onChunk (s : BufState) (c : Nat) : BufState :=
  pumpQueue { s with queue := s.queue ++ [c] }

/-- `finishTTSPlayback` (lines 183–243) on `{type:"audio_end"}`, MediaSource
open: if an append is in progress, attach `checkAndEnd` to `updateend`;
otherwise call `ms.endOfStream()` at once. -/
def finishTTSPlayback (s : BufState) : BufState :=
  if s.updating then { s with waiting := true }
  else { s with finalized := true }

/-- Dispatch one scheduler event to the playback pipeline. -/
def bufStep (s : BufState) (e : BufEv) : BufState :=
  match e with
  | .chunk c => onChunk s c
  | .updateEnd => onUpdateEnd s
  | .audioEnd => finishTTSPlayback s

/-- Run the playback pipeline over a whole event sequence. -/
def runBuf (s : BufState) (evs : List BufEv) : BufState :=
  evs.foldl bufStep s

/-- The pipeline's state before the first TTS chunk arrives. -/
def initBuf : BufState :=
  { queue := [], updating := false, sink := [], waiting := false, finalized := false }

/-- The chunks an event sequence delivers, in arrival order. -/
def arrivals : List BufEv → List Nat
  | [] => []
  | .chunk c :: evs => c :: arrivals evs
  | _ :: evs => arrivals evs

/-! ## Capture pipe (WebSocket hook, `startMicRecording`)

`mediaRec.ondataavailable` (lines 76–83) throttles outbound chunks: a chunk
is sent only when at least 200 ms have passed since the previous send.  When
the VAD fires, `flushAndStop` (lines 106–122) requests one more
`dataavailable` and then stops the recorder; both resulting chunks are
delivered to the same throttled `ondataavailable` handler (`flushAndStop`
itself only calls `mediaRec.stop()`). -/

/-- Throttle state: `lastSendRef` and the chunk ids sent so far, in order. -/
structure MicSendState where
  lastSend : Nat
  sent : List Nat
  deriving DecidableEq, Repr

/-- `mediaRec.ondataavailable`: skip empty chunks; send only when
`now - lastSendRef.current >= 200`, updating `lastSendRef`; otherwise the
chunk is dropped. -/
def onDataAvailable (s : MicSendState) (now size chunkId : Nat) : MicSendState :=
  if size = 0 then s
  else if 200 ≤ now - s.lastSend then { lastSend := now, sent := s.sent ++ [chunkId] }
  else s

/-- The two `dataavailable` deliveries on utterance end: the chunk produced
by `mediaRec.requestData()` (at `tReq`) and the final chunk produced by
`mediaRec.stop()` (at `tStop`).  Each passes through the throttled
`ondataavailable` handler; nothing bypasses the throttle. -/
def flushAndStop (s : MicSendState) (tReq sizeReq idReq tStop sizeStop idStop : Nat) :
    MicSendState :=
  onDataAvailable (onDataAvailable s tReq sizeReq idReq) tStop sizeStop idStop

/-! ## Session stop (WebSocket hook, `stopChat`, lines 323–332) -/

/-- A resource-release side effect `stopChat` can perform. -/
inductive StopEffect
  | closeSocket
  | stopMicTracks
  | pauseAudio
  deriving DecidableEq, Repr

/-- The session state `stopChat` reads and writes: `activeRef`,
`isChatting`, `status`. -/
structure WsSession where
  active : Bool
  chatting : Bool
  status : String
  deriving DecidableEq, Repr

/-- `stopChat`: if `activeRef.current` is already false, return at once with
no effects; otherwise clear the flag, close the socket, stop the mic tracks,
pause playback and set the status to idle. -/
def stopChat (s : WsSession) : WsSession × List StopEffect :=
  if s.active = false then (s, [])
  else (⟨false, false, "idle"⟩, [.closeSocket, .stopMicTracks, .pauseAudio])

/-! ## Microphone acquisition errors (`useVoiceChat.js` `listenToUser`,
lines 141–205)

`listenToUser` sets the status to listening, then tries `getUserMedia`.  The
`catch` block (lines 201–204) logs the error and, whenever
`chatActiveRef.current` is still true, schedules `setTimeout(listenToUser,
1000)`; it does not inspect the error, so a permission denial takes the same
path as any other device error. -/

/-- How `navigator.mediaDevices.getUserMedia` resolves. -/
inductive MicAcquire
  | granted
  | permissionDenied
  | otherError
  deriving DecidableEq, Repr

/-- What one `listenToUser` attempt leaves behind: the conversation status,
whether a 1000 ms retry timer was scheduled, and whether recording
started. -/
structure ListenOutcome where
  status : String
  retryScheduled : Bool
  recording : Bool
  deriving DecidableEq, Repr

/-- `listenToUser` as a function of the `chatActiveRef` flag, the prior
status and the `getUserMedia` outcome. -/
def listenToUser (active : Bool) (status0 : String) (mic : MicAcquire) : ListenOutcome :=
  if active = false then ⟨status0, false, false⟩
  else
    match mic with
    | .granted => ⟨"listening", false, true⟩
    | .permissionDenied => ⟨"listening", true, false⟩
    | .otherError => ⟨"listening", true, false⟩

/-! ## Transcription upload (`useVoiceChat.js` `uploadAndTranscribe`,
lines 113–138) -/

/-- What `uploadAndTranscribe` does next after the `/stt` response: invoke
`speakAsAI` with the transcript, loop back to `listenToUser`, or nothing
(session no longer active). -/
inductive NextStep
  | speakAsAI (prompt : String)
  | listen
  | halt
  deriving DecidableEq, Repr

/-- The session state `uploadAndTranscribe` touches: `chatActiveRef`,
`status`, `chatHistory` and `turnRef`. -/
structure ChatSession where
  active : Bool
  status : String
  history : List ChatTurn
  turn : Nat
  deriving DecidableEq, Repr

/-- The JS condition `transcript.trim()` is falsy exactly when trimming
leaves nothing, i.e. every character of the transcript is whitespace (an
empty transcript included). -/
def trimmedEmpty (s : String) : Bool :=
  s.data.all Char.isWhitespace

/-- `uploadAndTranscribe`: bail out if the session is inactive; set the
status to transcribing; read `data.text || ''`; if the trimmed transcript is
non-empty append a user turn, advance the turn counter and speak, else go
straight back to listening. -/
def uploadAndTranscribe (s : ChatSession) (respText : Option String) :
    ChatSession × NextStep :=
  if s.active = false then (s, .halt)
  else
    let s1 : ChatSession := { s with status := "transcribing" }
    let transcript := respText.getD ""
    if trimmedEmpty transcript then (s1, .listen)
    else ({ s1 with history := s1.history ++ [⟨"user", transcript⟩], turn := s1.turn + 1 },
          .speakAsAI transcript)

/-! ## Token-space insertion (`streamAssistantResponse`, `useVoiceChat.js`
lines 311–329 and `App.jsx` lines 262–277) -/

/-- The JS test `token.match(/^[.,!?;:]/)`: the token's first character is
one of the six sentence-punctuation characters. -/
def tokenStartsWithPunct (token : String) : Bool :=
  match token.data with
  | [] => false
  | c :: _ => [ '.', ',', '!', '?', ';', ':'].contains c

/-- The JS test `s.endsWith(c)` for a single character `c`: the last
character of `s` equals `c`. -/
def endsWithChar (s : String) (c : Char) : Bool :=
  s.data.getLast? = some c

/-- `needsSpace`: the accumulated reply is non-empty, the token does not
start with sentence punctuation, and the reply ends with neither a space nor
a newline. -/
def needsSpace (fullReply token : String) : Bool :=
  fullReply.length != 0 && !(tokenStartsWithPunct token) &&
    !(endsWithChar fullReply ' ') && !(endsWithChar fullReply '\n')

/-- One streamed token folded into the accumulated reply:
`const t = needsSpace ? ' ' + token : token; fullReply += t`. -/
def streamAssistantStep (fullReply token : String) : String :=
  if needsSpace fullReply token then fullReply ++ " " ++ token else fullReply ++ token

/-! ## Helper lemmas about the loop runner -/

theorem runLoop_append {σ : Type} (step : σ → Nat → Nat → Sum σ Nat) (s : σ)
    (l₁ l₂ : List (Nat × Nat)) :
    runLoop step s (l₁ ++ l₂) =
      match runLoop step s l₁ with
      | Sum.inl s' => runLoop step s' l₂
      | Sum.inr t => Sum.inr t := by
  induction l₁ generalizing s with
  | nil => rfl
  | cons p rest ih =>
    obtain ⟨t, v⟩ := p
    simp only [List.cons_append, runLoop]
    cases step s t v with
    | inl s' => exact ih s'
    | inr tf => rfl

theorem runLoop_inr_append {σ : Type} (step : σ → Nat → Nat → Sum σ Nat) (s : σ)
    (l e : List (Nat × Nat)) (tf : Nat) (h : runLoop step s l = Sum.inr tf) :
    runLoop step s (l ++ e) = Sum.inr tf := by
  rw [runLoop_append, h]

theorem runLoop_inl_append {σ : Type} (step : σ → Nat → Nat → Sum σ Nat) (s s' : σ)
    (l e : List (Nat × Nat)) (h : runLoop step s l = Sum.inl s') :
    runLoop step s (l ++ e) = runLoop step s' e := by
  rw [runLoop_append, h]

/-! ## VAD lemmas -/

theorem silenceLoop_quiet_run (thr holdOff : Nat) (trace : List (Nat × Nat)) (s : VadState)
    (hs : s.hasSpoken = false) (hq : ∀ p ∈ trace, p.2 < thr) :
    silenceLoopGo thr holdOff s trace = Sum.inl s := by
  induction trace with
  | nil => rfl
  | cons q rest ih =>
    obtain ⟨t, v⟩ := q
    have hv : v < thr := hq (t, v) (List.mem_cons_self _ _)
    have h1 : silenceLoopStep thr holdOff s t v = Sum.inl s := by
      simp [silenceLoopStep, hs, Nat.not_le.mpr hv]
    simp only [silenceLoopGo, runLoop]
    rw [h1]
    exact ih (fun p hp => hq p (List.mem_cons_of_mem _ hp))

theorem silenceLoop_fires_of_silence (thr holdOff t1 : Nat) (b : List (Nat × Nat))
    (hq : ∀ p ∈ b, p.2 < thr) (hg : ∃ p ∈ b, t1 + holdOff < p.1) :
    ∃ tf, silenceLoopGo thr holdOff ⟨true, some t1⟩ b = Sum.inr tf ∧ holdOff < tf - t1 := by
  induction b with
  | nil =>
    obtain ⟨p, hp, _⟩ := hg
    exact absurd hp (List.not_mem_nil p)
  | cons q rest ih =>
    obtain ⟨t, v⟩ := q
    have hv : v < thr := hq (t, v) (List.mem_cons_self _ _)
    by_cases hfire : holdOff < t - t1
    · refine ⟨t, ?_, hfire⟩
      have h1 : silenceLoopStep thr holdOff ⟨true, some t1⟩ t v = Sum.inr t := by
        simp [silenceLoopStep, Nat.not_le.mpr hv, hfire]
      simp only [silenceLoopGo, runLoop]
      rw [h1]
    · have h1 : silenceLoopStep thr holdOff ⟨true, some t1⟩ t v = Sum.inl ⟨true, some t1⟩ := by
        simp [silenceLoopStep, Nat.not_le.mpr hv, hfire]
      have hg' : ∃ p ∈ rest, t1 + holdOff < p.1 := by
        obtain ⟨p, hp, hpt⟩ := hg
        rcases List.mem_cons.mp hp with h | h
        · exfalso
          rw [h] at hpt
          exact hfire (by omega)
        · exact ⟨p, h, hpt⟩
      obtain ⟨tf, h2, h3⟩ := ih (fun p hp => hq p (List.mem_cons_of_mem _ hp)) hg'
      refine ⟨tf, ?_, h3⟩
      simp only [silenceLoopGo, runLoop]
      rw [h1]
      exact h2

theorem vadLoop_fires_of_silence (thr holdOff t0 : Nat) (b : List (Nat × Nat))
    (hq : ∀ p ∈ b, p.2 < thr) (hg : ∃ p ∈ b, t0 + holdOff < p.1) :
    ∃ tf, vadLoopGo thr holdOff ⟨true, t0⟩ b = Sum.inr tf ∧ holdOff < tf - t0 := by
  induction b with
  | nil =>
    obtain ⟨p, hp, _⟩ := hg
    exact absurd hp (List.not_mem_nil p)
  | cons q rest ih =>
    obtain ⟨t, v⟩ := q
    have hv : v < thr := hq (t, v) (List.mem_cons_self _ _)
    by_cases hfire : holdOff < t - t0
    · refine ⟨t, ?_, hfire⟩
      have h1 : vadLoopStep thr holdOff ⟨true, t0⟩ t v = Sum.inr t := by
        simp [vadLoopStep, Nat.not_le.mpr hv, hfire]
      simp only [vadLoopGo, runLoop]
      rw [h1]
    · have h1 : vadLoopStep thr holdOff ⟨true, t0⟩ t v = Sum.inl ⟨true, t0⟩ := by
        simp [vadLoopStep, Nat.not_le.mpr hv, hfire]
      have hg' : ∃ p ∈ rest, t0 + holdOff < p.1 := by
        obtain ⟨p, hp, hpt⟩ := hg
        rcases List.mem_cons.mp hp with h | h
        · exfalso
          rw [h] at hpt
          exact hfire (by omega)
        · exact ⟨p, h, hpt⟩
      obtain ⟨tf, h2, h3⟩ := ih (fun p hp => hq p (List.mem_cons_of_mem _ hp)) hg'
      refine ⟨tf, ?_, h3⟩
      simp only [vadLoopGo, runLoop]
      rw [h1]
      exact h2

/-! ## Claim C1 -/

/-- C1 (counterexample): the claim says the VAD loop never stops the recorder
when every sample stays below the speech threshold, and it cites the
`App.jsx` `silenceCheckLoop` — but that loop has no has-spoken guard: with
threshold 10 and hold-off 4000 ms, the all-silent trace
`[(0, 0), (4001, 0)]` makes it stop the recorder at time 4001. -/
theorem silenceCheckLoop_fires_on_pure_silence :
    (∀ p ∈ [((0 : Nat), (0 : Nat)), (4001, 0)], p.2 < 10) ∧
    silenceCheckLoopGo 10 4000 none [(0, 0), (4001, 0)] = Sum.inr 4001 := by
  decide

/-- C1 (amended): the `useVoiceChat.js` `silenceLoop` never fires on a trace
whose samples all stay below the speech threshold — `hasSpoken` stays false,
so the silence timer never even starts; the `App.jsx` `silenceCheckLoop` is
excluded, as it fires on silence alone (see the counterexample). -/
theorem silenceLoop_never_fires_without_speech (thr holdOff : Nat)
    (trace : List (Nat × Nat)) (hq : ∀ p ∈ trace, p.2 < thr) :
    silenceLoopGo thr holdOff ⟨false, none⟩ trace = Sum.inl ⟨false, none⟩ :=
  silenceLoop_quiet_run thr holdOff trace ⟨false, none⟩ rfl hq

theorem silenceLoop_never_fires_without_speech_witness :
    (∀ p ∈ [((0 : Nat), (0 : Nat)), (1000000, 5)], p.2 < 10) ∧
    silenceLoopGo 10 2000 ⟨false, none⟩ [(0, 0), (1000000, 5)] = Sum.inl ⟨false, none⟩ :=
  ⟨by decide, silenceLoop_never_fires_without_speech 10 2000 _ (by decide)⟩

/-! ## Claim C2 -/

/-- C2: on any trace where the speech threshold is reached at some sample
`(ts, vs)` (the prefix `a` before it not having fired) and every later sample
is sub-threshold, with the silence spanning strictly more than the hold-off
(a sample lies beyond `t1 + holdOff`, `t1` the first quiet tick, where the
JS guard `now - silenceStart > holdOff` is strict), both VAD variants fire
exactly once — the run returns a single `Sum.inr` firing time, and any
samples `extra` beyond the firing are never consumed — at a time more than
the hold-off past the start of silence (`silenceLoop` measures from the first
quiet tick `t1`, `VAD_LOOP` from the last loud tick `ts`). -/
theorem vad_fires_once_after_holdoff (thr holdOff ts vs t1 v1 tstart : Nat)
    (a b' extra : List (Nat × Nat))
    (hs : thr ≤ vs) (hv1 : v1 < thr) (hq : ∀ p ∈ b', p.2 < thr)
    (hgap : ∃ p ∈ b', t1 + holdOff < p.1) (hts : ts ≤ t1)
    (ha1 : ∃ sa, silenceLoopGo thr holdOff ⟨false, none⟩ a = Sum.inl sa)
    (ha2 : ∃ sa, vadLoopGo thr holdOff ⟨false, tstart⟩ a = Sum.inl sa) :
    (∃ tf, silenceLoopGo thr holdOff ⟨false, none⟩
        (a ++ (ts, vs) :: (t1, v1) :: (b' ++ extra)) = Sum.inr tf ∧ holdOff < tf - t1) ∧
    (∃ tf, vadLoopGo thr holdOff ⟨false, tstart⟩
        (a ++ (ts, vs) :: (t1, v1) :: (b' ++ extra)) = Sum.inr tf ∧ holdOff < tf - ts) := by
  constructor
  · obtain ⟨sa, hsa⟩ := ha1
    have e1 : silenceLoopGo thr holdOff ⟨false, none⟩
        (a ++ (ts, vs) :: (t1, v1) :: (b' ++ extra))
        = silenceLoopGo thr holdOff sa ((ts, vs) :: (t1, v1) :: (b' ++ extra)) :=
      runLoop_inl_append _ _ _ _ _ hsa
    have e2 : silenceLoopGo thr holdOff sa ((ts, vs) :: (t1, v1) :: (b' ++ extra))
        = silenceLoopGo thr holdOff ⟨true, some t1⟩ (b' ++ extra) := by
      have h1 : silenceLoopStep thr holdOff sa ts vs = Sum.inl ⟨true, none⟩ := by
        simp [silenceLoopStep, hs]
      have h2 : silenceLoopStep thr holdOff ⟨true, none⟩ t1 v1 = Sum.inl ⟨true, some t1⟩ := by
        simp [silenceLoopStep, Nat.not_le.mpr hv1]
      simp only [silenceLoopGo, runLoop]
      rw [h1]
      simp only [runLoop]
      rw [h2]
    obtain ⟨tf, hf, hb⟩ := silenceLoop_fires_of_silence thr holdOff t1 b' hq hgap
    refine ⟨tf, ?_, hb⟩
    rw [e1, e2]
    exact runLoop_inr_append _ _ _ _ _ hf
  · obtain ⟨sa, hsa⟩ := ha2
    have e1 : vadLoopGo thr holdOff ⟨false, tstart⟩
        (a ++ (ts, vs) :: (t1, v1) :: (b' ++ extra))
        = vadLoopGo thr holdOff sa ((ts, vs) :: (t1, v1) :: (b' ++ extra)) :=
      runLoop_inl_append _ _ _ _ _ hsa
    have e2 : vadLoopGo thr holdOff sa ((ts, vs) :: (t1, v1) :: (b' ++ extra))
        = vadLoopGo thr holdOff ⟨true, ts⟩ ((t1, v1) :: (b' ++ extra)) := by
      have h1 : vadLoopStep thr holdOff sa ts vs = Sum.inl ⟨true, ts⟩ := by
        simp [vadLoopStep, hs]
      simp only [vadLoopGo, runLoop]
      rw [h1]
    by_cases hfire : holdOff < t1 - ts
    · refine ⟨t1, ?_, hfire⟩
      have h1 : vadLoopStep thr holdOff ⟨true, ts⟩ t1 v1 = Sum.inr t1 := by
        simp [vadLoopStep, Nat.not_le.mpr hv1, hfire]
      rw [e1, e2]
      simp only [vadLoopGo, runLoop]
      rw [h1]
    · have h1 : vadLoopStep thr holdOff ⟨true, ts⟩ t1 v1 = Sum.inl ⟨true, ts⟩ := by
        simp [vadLoopStep, Nat.not_le.mpr hv1, hfire]
      have hgap' : ∃ p ∈ b', ts + holdOff < p.1 := by
        obtain ⟨p, hp, hpt⟩ := hgap
        exact ⟨p, hp, by omega⟩
      obtain ⟨tf, hf, hb⟩ := vadLoop_fires_of_silence thr holdOff ts b' hq hgap'
      refine ⟨tf, ?_, hb⟩
      rw [e1, e2]
      simp only [vadLoopGo, runLoop]
      rw [h1]
      exact runLoop_inr_append _ _ _ _ _ hf

theorem vad_fires_once_after_holdoff_witness :
    (∃ tf, silenceLoopGo 10 2000 ⟨false, none⟩ [(0, 50), (100, 0), (2200, 0), (9999, 0)]
        = Sum.inr tf ∧ 2000 < tf - 100) ∧
    (∃ tf, vadLoopGo 10 2000 ⟨false, 0⟩ [(0, 50), (100, 0), (2200, 0), (9999, 0)]
        = Sum.inr tf ∧ 2000 < tf - 0) := by
  have h := vad_fires_once_after_holdoff 10 2000 0 50 100 0 0 [] [(2200, 0)] [(9999, 0)]
    (by decide) (by decide) (by decide) (by decide) (by decide)
    ⟨⟨false, none⟩, rfl⟩ ⟨⟨false, 0⟩, rfl⟩
  simpa using h

/-! ## Playback-buffer lemmas -/

theorem pumpQueue_sink_queue (s : BufState) :
    (pumpQueue s).sink ++ (pumpQueue s).queue = s.sink ++ s.queue := by
  by_cases hu : s.updating = true
  · simp [pumpQueue, hu]
  · cases hq : s.queue with
    | nil => simp [pumpQueue, hu, hq]
    | cons c rest => simp [pumpQueue, hu, hq]

theorem pumpQueue_waiting (s : BufState) : (pumpQueue s).waiting = s.waiting := by
  unfold pumpQueue
  split
  · rfl
  · split <;> rfl

theorem pumpQueue_finalized (s : BufState) : (pumpQueue s).finalized = s.finalized := by
  unfold pumpQueue
  split
  · rfl
  · split <;> rfl

theorem pumpQueue_updating_of_queue (s : BufState) :
    (pumpQueue s).queue ≠ [] → (pumpQueue s).updating = true := by
  intro h
  by_cases hu : s.updating = true
  · simp [pumpQueue, hu]
  · cases hq : s.queue with
    | nil =>
      exfalso
      apply h
      simp [pumpQueue, hu, hq]
    | cons c rest => simp [pumpQueue, hu, hq]

theorem checkAndEnd_queue (s : BufState) : (checkAndEnd s).queue = s.queue := by
  unfold checkAndEnd
  split
  · rfl
  · split <;> rfl

theorem checkAndEnd_sink (s : BufState) : (checkAndEnd s).sink = s.sink := by
  unfold checkAndEnd
  split
  · rfl
  · split <;> rfl

theorem checkAndEnd_updating (s : BufState) : (checkAndEnd s).updating = s.updating := by
  unfold checkAndEnd
  split
  · rfl
  · split <;> rfl

theorem onUpdateEnd_queue (s : BufState) :
    (onUpdateEnd s).queue = (pumpQueue { s with updating := false }).queue := by
  dsimp only [onUpdateEnd]
  split
  · exact checkAndEnd_queue _
  · rfl

theorem onUpdateEnd_updating (s : BufState) :
    (onUpdateEnd s).updating = (pumpQueue { s with updating := false }).updating := by
  dsimp only [onUpdateEnd]
  split
  · exact checkAndEnd_updating _
  · rfl

theorem onUpdateEnd_sink_queue (s : BufState) :
    (onUpdateEnd s).sink ++ (onUpdateEnd s).queue = s.sink ++ s.queue := by
  have h : (pumpQueue { s with updating := false }).sink ++
      (pumpQueue { s with updating := false }).queue = s.sink ++ s.queue :=
    pumpQueue_sink_queue _
  dsimp only [onUpdateEnd]
  split
  · rw [checkAndEnd_sink, checkAndEnd_queue]
    exact h
  · exact h

theorem bufStep_sink_queue (s : BufState) (e : BufEv) :
    (bufStep s e).sink ++ (bufStep s e).queue = (s.sink ++ s.queue) ++ arrivals [e] := by
  cases e with
  | chunk c =>
    have h : (bufStep s (BufEv.chunk c)).sink ++ (bufStep s (BufEv.chunk c)).queue
        = s.sink ++ (s.queue ++ [c]) := pumpQueue_sink_queue _
    rw [h]
    simp [arrivals]
  | updateEnd =>
    have h := onUpdateEnd_sink_queue s
    simpa [arrivals] using h
  | audioEnd =>
    show (finishTTSPlayback s).sink ++ (finishTTSPlayback s).queue = _
    unfold finishTTSPlayback
    split <;> simp [arrivals]

theorem runBuf_sink_queue (evs : List BufEv) :
    ∀ s : BufState, (runBuf s evs).sink ++ (runBuf s evs).queue
      = (s.sink ++ s.queue) ++ arrivals evs := by
  induction evs with
  | nil => intro s; simp [runBuf, arrivals]
  | cons e rest ih =>
    intro s
    have h1 : runBuf s (e :: rest) = runBuf (bufStep s e) rest := rfl
    rw [h1, ih]
    rw [bufStep_sink_queue]
    cases e <;> simp [arrivals]

theorem bufStep_queue_updating (s : BufState) (e : BufEv)
    (h : s.queue ≠ [] → s.updating = true) :
    (bufStep s e).queue ≠ [] → (bufStep s e).updating = true := by
  cases e with
  | chunk c => exact pumpQueue_updating_of_queue _
  | updateEnd =>
    show (onUpdateEnd s).queue ≠ [] → (onUpdateEnd s).updating = true
    rw [onUpdateEnd_queue, onUpdateEnd_updating]
    exact pumpQueue_updating_of_queue _
  | audioEnd =>
    show (finishTTSPlayback s).queue ≠ [] → (finishTTSPlayback s).updating = true
    unfold finishTTSPlayback
    split <;> exact h

theorem runBuf_queue_updating (evs : List BufEv) :
    ∀ s : BufState, (s.queue ≠ [] → s.updating = true) →
      ((runBuf s evs).queue ≠ [] → (runBuf s evs).updating = true) := by
  induction evs with
  | nil => intro s h; exact h
  | cons e rest ih => intro s h; exact ih _ (bufStep_queue_updating s e h)

theorem bufStep_noEnd_flags (s : BufState) (e : BufEv) (he : e ≠ BufEv.audioEnd)
    (hw : s.waiting = false) (hf : s.finalized = false) :
    (bufStep s e).waiting = false ∧ (bufStep s e).finalized = false := by
  cases e with
  | chunk c => exact ⟨(pumpQueue_waiting _).trans hw, (pumpQueue_finalized _).trans hf⟩
  | updateEnd =>
    have hw1 : (pumpQueue { s with updating := false }).waiting = false :=
      (pumpQueue_waiting _).trans hw
    have he1 : bufStep s BufEv.updateEnd = pumpQueue { s with updating := false } := by
      simp [bufStep, onUpdateEnd, hw1]
    rw [he1]
    exact ⟨hw1, (pumpQueue_finalized _).trans hf⟩
  | audioEnd => exact absurd rfl he

theorem runBuf_noEnd_flags (evs : List BufEv) :
    ∀ s : BufState, BufEv.audioEnd ∉ evs → s.waiting = false → s.finalized = false →
      (runBuf s evs).waiting = false ∧ (runBuf s evs).finalized = false := by
  induction evs with
  | nil => intro s _ hw hf; exact ⟨hw, hf⟩
  | cons e rest ih =>
    intro s hne hw hf
    have he : e ≠ BufEv.audioEnd := fun h => hne (h ▸ List.mem_cons_self e rest)
    obtain ⟨hw1, hf1⟩ := bufStep_noEnd_flags s e he hw hf
    exact ih _ (fun h => hne (List.mem_cons_of_mem e h)) hw1 hf1

theorem onUpdateEnd_final_inv (s : BufState)
    (hfin : s.finalized = true → s.queue = [] ∧ s.updating = false) :
    (onUpdateEnd s).finalized = true →
      (onUpdateEnd s).queue = [] ∧ (onUpdateEnd s).updating = false := by
  obtain ⟨q, u, k, w, f⟩ := s
  cases f with
  | false =>
    cases q with
    | nil => cases u <;> cases w <;> simp [onUpdateEnd, pumpQueue, checkAndEnd]
    | cons c rest =>
      cases u <;> cases w <;> cases rest <;> simp [onUpdateEnd, pumpQueue, checkAndEnd]
  | true =>
    obtain ⟨hq, hu⟩ := hfin rfl
    simp only at hq hu
    subst hq
    subst hu
    cases w <;> simp [onUpdateEnd, pumpQueue, checkAndEnd]

theorem runBuf_updateEnd_final_inv (evs : List BufEv)
    (hevs : ∀ e ∈ evs, e = BufEv.updateEnd) :
    ∀ s : BufState, (s.finalized = true → s.queue = [] ∧ s.updating = false) →
      ((runBuf s evs).finalized = true →
        (runBuf s evs).queue = [] ∧ (runBuf s evs).updating = false) := by
  induction evs with
  | nil => intro s h; exact h
  | cons e rest ih =>
    intro s h
    have he : e = BufEv.updateEnd := hevs e (List.mem_cons_self e rest)
    subst he
    exact ih (fun e hm => hevs e (List.mem_cons_of_mem _ hm)) _ (onUpdateEnd_final_inv s h)

theorem finishTTS_final_inv (s : BufState)
    (hq : s.queue ≠ [] → s.updating = true) (hf : s.finalized = false) :
    (finishTTSPlayback s).finalized = true →
      (finishTTSPlayback s).queue = [] ∧ (finishTTSPlayback s).updating = false := by
  unfold finishTTSPlayback
  by_cases hu : s.updating = true
  · simp [hu, hf]
  · intro _
    have hqe : s.queue = [] := by
      by_contra hne
      exact hu (hq hne)
    simp [hu, hqe]

theorem append_cons_eq_append_cases {α : Type} (xs : List α) (m : α) (ys zs ws : List α)
    (h : xs ++ m :: ys = zs ++ ws) :
    (∃ rest, xs = zs ++ rest) ∨ ∃ ys1 ys2, zs = xs ++ m :: ys1 ∧ ys = ys1 ++ ys2 := by
  induction zs generalizing xs with
  | nil => exact Or.inl ⟨xs, by simp⟩
  | cons z zs' ih =>
    cases xs with
    | nil =>
      simp only [List.nil_append, List.cons_append] at h
      injection h with h1 h2
      refine Or.inr ⟨zs', ws, ?_, h2⟩
      simp [h1]
    | cons x xs' =>
      rw [List.cons_append, List.cons_append] at h
      injection h with h1 h2
      rcases ih xs' h2 with ⟨rest, hr⟩ | ⟨ys1, ys2, hz, hy⟩
      · refine Or.inl ⟨rest, ?_⟩
        rw [List.cons_append, ← hr, h1]
      · refine Or.inr ⟨ys1, ys2, ?_, hy⟩
        rw [List.cons_append, ← hz, h1]

/-! ## Claim C4 -/

/-- C4: over any interleaving of chunk arrivals and append completions, the
chunks handed to `appendBuffer` (`sink`) followed by the chunks still queued
equal the arrival sequence — so the sink always receives a prefix of the
arrival order, chunks are never reordered (`[A, B, C]` can never reach the
sink as `A, C, B`, however long an append is delayed), and a chunk arriving
mid-append waits in the queue until `updateend` pumps it. -/
theorem playback_chunks_in_arrival_order (evs : List BufEv) :
    (runBuf initBuf evs).sink ++ (runBuf initBuf evs).queue = arrivals evs := by
  have h := runBuf_sink_queue evs initBuf
  simpa [initBuf] using h

/-! ## Claim C6 -/

/-- C6: on any schedule made of chunk arrivals and `updateend` completions
followed by the `audio_end` message and then only `updateend` completions,
whenever `ms.endOfStream()` has run (`finalized`), the chunk queue is empty
and no append is in progress — finalization is deferred until the queue
drains, and the stream is never closed for appends while undelivered chunks
remain.  `zs ++ ws` ranges over every split of the schedule, so the
conclusion holds at every prefix `zs`, in particular at the moment
finalization first happens. -/
theorem finalize_deferred_until_queue_drained (xs ys zs ws : List BufEv)
    (hxs : BufEv.audioEnd ∉ xs) (hys : ∀ e ∈ ys, e = BufEv.updateEnd)
    (hsplit : xs ++ BufEv.audioEnd :: ys = zs ++ ws)
    (hfin : (runBuf initBuf zs).finalized = true) :
    (runBuf initBuf zs).queue = [] ∧ (runBuf initBuf zs).updating = false := by
  rcases append_cons_eq_append_cases xs BufEv.audioEnd ys zs ws hsplit with
    ⟨rest, hr⟩ | ⟨ys1, ys2, hz, hy⟩
  · have hnz : BufEv.audioEnd ∉ zs := fun hmem => hxs (by rw [hr]; exact List.mem_append_left _ hmem)
    have hA := runBuf_noEnd_flags zs initBuf hnz rfl rfl
    rw [hA.2] at hfin
    exact absurd hfin (by decide)
  · have hqu_xs : (runBuf initBuf xs).queue ≠ [] → (runBuf initBuf xs).updating = true :=
      runBuf_queue_updating xs initBuf (fun h => absurd rfl h)
    have hA := runBuf_noEnd_flags xs initBuf hxs rfl rfl
    have hrw : runBuf initBuf zs = runBuf (bufStep (runBuf initBuf xs) BufEv.audioEnd) ys1 := by
      rw [hz]
      simp [runBuf, List.foldl_append]
    have hB0 := finishTTS_final_inv (runBuf initBuf xs) hqu_xs hA.2
    have hys1 : ∀ e ∈ ys1, e = BufEv.updateEnd :=
      fun e he => hys e (by rw [hy]; exact List.mem_append_left _ he)
    have hfinal := runBuf_updateEnd_final_inv ys1 hys1
      (bufStep (runBuf initBuf xs) BufEv.audioEnd) hB0
    rw [hrw] at hfin ⊢
    exact hfinal hfin

theorem finalize_deferred_until_queue_drained_witness :
    (BufEv.audioEnd ∉ [BufEv.chunk 1]) ∧
    (∀ e ∈ [BufEv.updateEnd], e = BufEv.updateEnd) ∧
    (runBuf initBuf [BufEv.chunk 1, BufEv.audioEnd, BufEv.updateEnd]).finalized = true ∧
    (runBuf initBuf [BufEv.chunk 1, BufEv.audioEnd, BufEv.updateEnd]).queue = [] ∧
    (runBuf initBuf [BufEv.chunk 1, BufEv.audioEnd, BufEv.updateEnd]).updating = false :=
  ⟨by decide, by decide, by decide,
    finalize_deferred_until_queue_drained [BufEv.chunk 1] [BufEv.updateEnd]
      [BufEv.chunk 1, BufEv.audioEnd, BufEv.updateEnd] []
      (by decide) (by decide) (by decide) (by decide)⟩

/-! ## Claim C3 -/

/-- C3: an `assistant_text` message with `partial` false replaces the text of
a trailing assistant turn in place — the history keeps the same turns with
only the last content swapped to the final text, with no second assistant
turn appended and no concatenation onto the in-progress content; and the
spec's scenario: partial tokens "Hello" and " there" followed by the final
"Hello there." leave exactly one assistant turn whose content is
"Hello there.". -/
theorem assistantFinal_replaces_last_turn (pre : List ChatTurn) (c t : String) :
    applyAssistantText (pre ++ [⟨"assistant", c⟩]) t false = pre ++ [⟨"assistant", t⟩] ∧
    applyAssistantText (applyAssistantText (applyAssistantText demoHistory "Hello" true)
        " there" true) "Hello there." false
      = demoHistory ++ [⟨"assistant", "Hello there."⟩] := by
  constructor
  · unfold applyAssistantText
    rw [List.getLast?_concat]
    simp [List.dropLast_concat]
  · decide

/-! ## Claim C5 -/

/-- C5: the claim (and the comments at part_000 lines 111–114 and 129) says
the closing chunk is always emitted regardless of throttle state, but both
closing `dataavailable` deliveries go through the throttled handler: with a
send recorded at t = 1000 ms, the `requestData` chunk (id 8, t = 1100 ms) and
the final stop chunk (id 9, t = 1150 ms) are both inside the 200 ms window
and are dropped — the sent list still holds only chunk 7 and the closing
WebM bytes are lost. -/
theorem closing_chunk_dropped_by_throttle :
    flushAndStop ⟨1000, [7]⟩ 1100 5 8 1150 5 9 = ⟨1000, [7]⟩ ∧
    8 ∉ (flushAndStop ⟨1000, [7]⟩ 1100 5 8 1150 5 9).sent ∧
    9 ∉ (flushAndStop ⟨1000, [7]⟩ 1100 5 8 1150 5 9).sent := by
  decide

/-! ## Claim C7 -/

/-- C7: stopping twice is a no-op the second time: for every session state,
the second `stopChat` call returns the state unchanged and performs no
resource-release side effects (no socket close, no track stop, no pause, no
status change), because the first call already cleared the active flag. -/
theorem stopChat_idempotent (s : WsSession) :
    stopChat (stopChat s).1 = ((stopChat s).1, []) := by
  by_cases h : s.active = false
  · simp [stopChat, h]
  · simp [stopChat, h]

/-! ## Claim C8 -/

/-- C8 (counterexample): with the session active and `getUserMedia` rejecting
with a permission denial, `listenToUser` leaves the status at "listening"
(set before the attempt, not back to idle) and schedules the 1000 ms retry
timer — the catch block never inspects the error, so the claim's
"no retry timer is scheduled" and "status remains idle" are both false. -/
theorem permission_denied_schedules_retry :
    (listenToUser true "idle" MicAcquire.permissionDenied).retryScheduled = true ∧
    (listenToUser true "idle" MicAcquire.permissionDenied).status = "listening" :=
  ⟨rfl, rfl⟩

/-- C8 (amended): every microphone-acquisition failure — permission denial
included — is handled identically: the status has been set to "listening"
and, since the session is active, a retry is scheduled with the fixed
1000 ms backoff; no error is surfaced as terminal.  Only an inactive session
prevents the retry (the attempt then changes nothing). -/
theorem mic_errors_retry_uniformly (status0 : String) (mic : MicAcquire)
    (hm : mic ≠ MicAcquire.granted) :
    listenToUser true status0 mic = ⟨"listening", true, false⟩ ∧
    listenToUser false status0 mic = ⟨status0, false, false⟩ := by
  constructor
  · cases mic with
    | granted => exact absurd rfl hm
    | permissionDenied => rfl
    | otherError => rfl
  · rfl

theorem mic_errors_retry_uniformly_witness :
    MicAcquire.permissionDenied ≠ MicAcquire.granted ∧
    (listenToUser true "idle" MicAcquire.permissionDenied = ⟨"listening", true, false⟩ ∧
     listenToUser false "idle" MicAcquire.permissionDenied = ⟨"idle", false, false⟩) :=
  ⟨by decide, mic_errors_retry_uniformly "idle" MicAcquire.permissionDenied (by decide)⟩

/-! ## Claim C9 -/

/-- C9 (counterexample): the claim says no space is inserted when the
accumulated text already ends with whitespace, but the code only tests for a
trailing space or newline: with accumulated text "a\t" — whose last
character is the tab, a whitespace character — and token "b", a space is
still inserted, producing "a\t b". -/
theorem space_inserted_after_trailing_tab :
    ("a\t".data.getLast? = some '\t' ∧ Char.isWhitespace '\t' = true) ∧
    streamAssistantStep "a\t" "b" = "a\t b" := by
  decide

/-- C9 (amended): when folding a streamed token into the accumulated reply,
a single space is inserted if and only if the accumulated text is non-empty,
the token does not start with one of the punctuation characters
. , ! ? ; : and the accumulated text ends with neither a space nor a newline
character (not "any whitespace": a trailing tab still gets a space);
otherwise the token is appended unchanged. -/
theorem space_insertion_iff (r t : String) :
    streamAssistantStep r t = r ++ " " ++ t ↔
      (r ≠ "" ∧ tokenStartsWithPunct t = false ∧
        r.data.getLast? ≠ some ' ' ∧ r.data.getLast? ≠ some '\n') := by
  have hns : needsSpace r t = true ↔
      (r ≠ "" ∧ tokenStartsWithPunct t = false ∧
        r.data.getLast? ≠ some ' ' ∧ r.data.getLast? ≠ some '\n') := by
    obtain ⟨l⟩ := r
    simp [needsSpace, endsWithChar, String.length, String.ext_iff, List.length_eq_zero,
      and_assoc]
  by_cases h : needsSpace r t = true
  · unfold streamAssistantStep
    rw [if_pos h]
    exact ⟨fun _ => hns.mp h, fun _ => rfl⟩
  · unfold streamAssistantStep
    rw [if_neg h]
    constructor
    · intro heq
      exfalso
      have hlen := congrArg String.length heq
      have hone : (" " : String).length = 1 := rfl
      simp [String.length_append, hone] at hlen
    · intro hr
      exact absurd (hns.mpr hr) h

/-! ## Claim C10 -/

/-- C10: when the session is active and the `/stt` response text is empty or
whitespace-only, `uploadAndTranscribe` appends no user turn, leaves the turn
counter unchanged, and goes straight back to listening instead of invoking
the assistant — the only state change is the transcribing status set before
the upload. -/
theorem empty_transcript_keeps_history (s : ChatSession) (respText : Option String)
    (ha : s.active = true) (ht : trimmedEmpty (respText.getD "") = true) :
    uploadAndTranscribe s respText = ({ s with status := "transcribing" }, NextStep.listen) := by
  unfold uploadAndTranscribe
  rw [ha]
  simp [ht]

theorem empty_transcript_keeps_history_witness :
    (⟨true, "idle", [], 0⟩ : ChatSession).active = true ∧
    trimmedEmpty ((some "  \t\n").getD "") = true ∧
    uploadAndTranscribe ⟨true, "idle", [], 0⟩ (some "  \t\n")
      = (⟨true, "transcribing", [], 0⟩, NextStep.listen) :=
  ⟨rfl, by decide, empty_transcript_keeps_history ⟨true, "idle", [], 0⟩ (some "  \t\n")
    rfl (by decide)⟩
